import Mathlib

/-!
# Verification of the theto spatial normalization and visual-encoding pipeline

Shallow embedding of the algorithmic core of the `theto` package
(`coordinate_utils.py`, `color_utils.py`, `theto.py`) over exact rational
arithmetic, together with theorems settling the specification claims about
the geohash codec, the input-normalization router, the color-assignment
engine, the greedy farthest-point ordering, and the workflow state machine.

Python floats are modelled by `ℚ` (the algorithms only add, subtract,
multiply, divide and halve, so exact arithmetic is faithful wherever no
division by zero occurs); Python ints by `ℤ`/`ℕ`; fallible code by
`Except`/`Option`.  External libraries (shapely's well-known-text parser,
pyproj projections, the json parser) are not code of this repository and are
abstracted: either as opaque constructors (`Geom.wktParsed`) or as explicit
function parameters (`ExternalGeo`).
-/

namespace Theto

/-! ## Geohash codec (`coordinate_utils.py`) -/

/-- `BASE32 = '0123456789bcdefghjkmnpqrstuvwxyz'` as a character list. -/
def base32Chars : List Char := "0123456789bcdefghjkmnpqrstuvwxyz".data

/-- `BASE32.index(c)`; Python raises `ValueError` when the character is
absent, modelled as `none`. -/
def base32Index (c : Char) : Option ℕ :=
  if c ∈ base32Chars then some (base32Chars.indexOf c) else none

/-- `format(i, 'b').zfill(5)`: the five-bit big-endian binary expansion of an
alphabet index (all indices are `< 32`, so five bits always suffice). -/
def bits5 (i : ℕ) : List Bool :=
  [decide (i / 16 % 2 = 1), decide (i / 8 % 2 = 1), decide (i / 4 % 2 = 1),
   decide (i / 2 % 2 = 1), decide (i % 2 = 1)]

/-- `divide_range_decode`: bisect the interval, keeping the upper half when
the bit is set and the lower half otherwise. -/
def divideRangeDecode (r : ℚ × ℚ) (b : Bool) : ℚ × ℚ :=
  let mid := (r.1 + r.2) / 2
  if b then (mid, r.2) else (r.1, mid)

/-- The decode loop of `geohash_to_centroid`: bits alternate between the
longitude range and the latitude range, starting with longitude
(`is_even_bit = True` initially). State is `(latitude_range,
longitude_range, is_even_bit)`. -/
def decodeRanges : List Bool → ((ℚ × ℚ) × (ℚ × ℚ) × Bool) → ((ℚ × ℚ) × (ℚ × ℚ) × Bool)
  | [], st => st
  | b :: bs, (latR, lonR, evenBit) =>
    if evenBit then decodeRanges bs (latR, divideRangeDecode lonR b, false)
    else decodeRanges bs (divideRangeDecode latR b, lonR, true)

/-- `binary_string`: concatenation of the five-bit expansions of every
character's alphabet index. -/
def geohashBits (g : List Char) : Option (List Bool) :=
  (g.mapM base32Index).map fun idxs => idxs.flatMap bits5

/-- `geohash_to_centroid(geohash, return_error=True)`: returns
`(latitude, longitude, latitude_error, longitude_error)` where the
coordinates are the midpoints of the final bisection intervals and the
errors are half the final interval widths. -/
def geohashToCentroid (g : String) : Option (ℚ × ℚ × ℚ × ℚ) :=
  (geohashBits g.data).map fun bits =>
    let st := decodeRanges bits ((-90, 90), (-180, 180), true)
    let latR := st.1
    let lonR := st.2.1
    ((latR.1 + latR.2) / 2, (lonR.1 + lonR.2) / 2,
      |latR.1 - latR.2| / 2, |lonR.1 - lonR.2| / 2)

/-- `validate_geohash`: length at most 12 and every character drawn from the
32-symbol alphabet. -/
def validateGeohash (s : String) : Bool :=
  if s.length > 12 then false
  else s.data.all fun c => decide (c ∈ base32Chars)

/-- An axis-aligned rectangle, the result of shapely's
`box(minx, miny, maxx, maxy)`. -/
structure Box where
  minx : ℚ
  miny : ℚ
  maxx : ℚ
  maxy : ℚ
deriving DecidableEq, Repr

/-- `geohash_to_shape`: the bounding box of a geohash, built from the
centroid and the two error half-widths. -/
def geohashToShape (g : String) : Option Box :=
  (geohashToCentroid g).map fun c =>
    let y := c.1
    let x := c.2.1
    let ym := c.2.2.1
    let xm := c.2.2.2
    ⟨x - xm, y - ym, x + xm, y + ym⟩

/-! ## Well-known-text recognition (`coordinate_utils.py`)

The source writes

```
VALID_WKT_TYPES = [
    'GEOMETRY',
    'POINT',
    'MULTIPOINT',
    'LINESTRING',
    'LINEARRING'
    'MULTILINESTRING',
    'POLYGON',
    'MULTIPOLYGON'
]
```

with no comma after `'LINEARRING'`, so Python's implicit string-literal
concatenation fuses the two entries into the single element
`'LINEARRINGMULTILINESTRING'`.  The embedding reproduces the list that the
interpreter actually builds. -/

def validWktTypes : List String :=
  ["GEOMETRY", "POINT", "MULTIPOINT", "LINESTRING",
   "LINEARRINGMULTILINESTRING", "POLYGON", "MULTIPOLYGON"]

/-- Python `s.startswith(pre)`. -/
def pyStartsWith (s pre : String) : Bool := pre.data.isPrefixOf s.data

/-- `validate_wellknowntext`: `any(value.startswith(vt) for vt in
VALID_WKT_TYPES)`. -/
def validateWellknowntext (s : String) : Bool :=
  validWktTypes.any fun vt => pyStartsWith s vt

/-! ## The normalization router (`process_input_value`) -/

/-- Error values raised by the pipeline.  The spec names the coordinate
bound violations `OutOfRange`, the router fallthrough `UnrecognizedInput`;
here each distinct `ValueError` message gets its own constructor. -/
inductive PyErr where
  | listLen
  | lonOutOfRange
  | latOutOfRange
  | stringUnrecognized
  | unrecognizable
  | typeErr
  | emptyData
  | emptyCoords
  | workflowOrder (msg : String)
deriving DecidableEq, Repr

deriving instance DecidableEq for Except

/-- Canonical geometry values.  `wktParsed s` stands for the result of
shapely's external `loads(s)` parser, which is not code of this repository
and is therefore abstracted as an opaque constructor; `opaqueShape` stands
for any other shapely geometry object handed in by the caller. -/
inductive Geom where
  | point (x y : ℚ)
  | boxShape (b : Box)
  | wktParsed (s : String)
  | opaqueShape (tag : ℕ)
deriving DecidableEq, Repr

/-- Inputs accepted by the router: strings, numeric tuples/lists, shapely
geometry objects, or anything else. -/
inductive PyValue where
  | str (s : String)
  | numList (xs : List ℚ)
  | geom (g : Geom)
  | other
deriving DecidableEq, Repr

/-- `validate_latlon_pair`.  The source checks the length, then the first
element against `[-180, 180]`, and then — in a slip — tests `value[0]`
again (not `value[1]`) against `[-90, 90]`, even though the accompanying
error message speaks of "the second element of the list".  The embedding
reproduces the code as written. -/
def validateLatlonPair (value : List ℚ) : Except PyErr Bool :=
  if value.length ≠ 2 then .error .listLen
  else if ¬(-180 ≤ value.getD 0 0 ∧ value.getD 0 0 ≤ 180) then .error .lonOutOfRange
  else if ¬(-90 ≤ value.getD 0 0 ∧ value.getD 0 0 ≤ 90) then .error .latOutOfRange
  else .ok true

/-- `validate_shapelyobject`: an `issubclass` check against the supported
geometry classes. -/
def validateShapelyObject : PyValue → Bool
  | .geom _ => true
  | _ => false

/-- `process_input_value`: the router.  Strings are tried as geohash, then
as well-known text; tuples/lists are validated as lon/lat pairs and turned
into points; shapely objects pass through; everything else is rejected. -/
def processInputValue (v : PyValue) : Except PyErr Geom :=
  match v with
  | .str s =>
    if validateGeohash s then
      match geohashToShape s with
      | some b => .ok (.boxShape b)
      | none => .error .unrecognizable
    else if validateWellknowntext s then .ok (.wktParsed s)
    else .error .stringUnrecognized
  | .numList xs =>
    match validateLatlonPair xs with
    | .error e => .error e
    | .ok _ => .ok (.point (xs.getD 0 0) (xs.getD 1 0))
  | .geom g => if validateShapelyObject (.geom g) then .ok g else .error .unrecognizable
  | .other => .error .unrecognizable

/-! ## Basic decode facts -/

theorem mapM_base32_isSome {g : List Char} (h : ∀ c ∈ g, c ∈ base32Chars) :
    ∃ l, g.mapM base32Index = some l := by
  induction g with
  | nil => exact ⟨[], rfl⟩
  | cons c cs ih =>
    have hc : c ∈ base32Chars := h c (List.mem_cons_self c cs)
    have hcs : ∀ x ∈ cs, x ∈ base32Chars := fun x hx => h x (List.mem_cons_of_mem c hx)
    rcases ih hcs with ⟨l, hl⟩
    refine ⟨base32Chars.indexOf c :: l, ?_⟩
    simp only [List.mapM_cons]
    have hidx : base32Index c = some (base32Chars.indexOf c) := by
      unfold base32Index
      simp [hc]
    rw [hidx, hl]
    rfl

theorem geohashBits_isSome {g : List Char} (h : ∀ c ∈ g, c ∈ base32Chars) :
    ∃ bits, geohashBits g = some bits := by
  rcases mapM_base32_isSome h with ⟨l, hl⟩
  refine ⟨l.flatMap bits5, ?_⟩
  unfold geohashBits
  rw [hl]
  rfl

/-- C4: for every valid geohash (alphabet characters, length ≤ 12) the
decode expands the characters to bits, bisects alternating intervals, and
returns the interval midpoints with errors equal to half the final interval
widths; the bounding box built from this result is the axis-aligned
rectangle centered at the returned (lat, lon) with half-widths equal to the
returned errors. -/
theorem c4_decode_box (g : String) (h : validateGeohash g = true) :
    ∃ lat lon laterr lonerr,
      geohashToCentroid g = some (lat, lon, laterr, lonerr) ∧
      geohashToShape g = some ⟨lon - lonerr, lat - laterr, lon + lonerr, lat + laterr⟩ ∧
      ((lon - lonerr) + (lon + lonerr)) / 2 = lon ∧
      ((lat - laterr) + (lat + laterr)) / 2 = lat ∧
      ((lon + lonerr) - (lon - lonerr)) / 2 = lonerr ∧
      ((lat + laterr) - (lat - laterr)) / 2 = laterr ∧
      ∃ bits, geohashBits g.data = some bits ∧
        lat = ((decodeRanges bits ((-90, 90), (-180, 180), true)).1.1 +
               (decodeRanges bits ((-90, 90), (-180, 180), true)).1.2) / 2 ∧
        lon = ((decodeRanges bits ((-90, 90), (-180, 180), true)).2.1.1 +
               (decodeRanges bits ((-90, 90), (-180, 180), true)).2.1.2) / 2 ∧
        laterr = |(decodeRanges bits ((-90, 90), (-180, 180), true)).1.1 -
                  (decodeRanges bits ((-90, 90), (-180, 180), true)).1.2| / 2 ∧
        lonerr = |(decodeRanges bits ((-90, 90), (-180, 180), true)).2.1.1 -
                  (decodeRanges bits ((-90, 90), (-180, 180), true)).2.1.2| / 2 := by
  have h2 : (g.data.all fun c => decide (c ∈ base32Chars)) = true := by
    unfold validateGeohash at h
    split at h
    · exact absurd h (by simp)
    · exact h
  have hchars : ∀ c ∈ g.data, c ∈ base32Chars := by
    intro c hc
    have := List.all_eq_true.mp h2 c hc
    exact of_decide_eq_true this
  rcases geohashBits_isSome hchars with ⟨bits, hbits⟩
  set st := decodeRanges bits ((-90, 90), (-180, 180), true) with hst
  have hcent : geohashToCentroid g =
      some ((st.1.1 + st.1.2) / 2, (st.2.1.1 + st.2.1.2) / 2,
        |st.1.1 - st.1.2| / 2, |st.2.1.1 - st.2.1.2| / 2) := by
    unfold geohashToCentroid
    rw [hbits]
    rfl
  refine ⟨(st.1.1 + st.1.2) / 2, (st.2.1.1 + st.2.1.2) / 2,
    |st.1.1 - st.1.2| / 2, |st.2.1.1 - st.2.1.2| / 2, hcent, ?_, by ring, by ring,
    by ring, by ring, bits, hbits, rfl, rfl, rfl, rfl⟩
  unfold geohashToShape
  rw [hcent]
  rfl

/-- Witness for C4 at the concrete geohash `"ezs42"`. -/
theorem c4_witness :
    validateGeohash "ezs42" = true ∧
    (∃ lat lon laterr lonerr,
      geohashToCentroid "ezs42" = some (lat, lon, laterr, lonerr) ∧
      geohashToShape "ezs42" =
        some ⟨lon - lonerr, lat - laterr, lon + lonerr, lat + laterr⟩ ∧
      ((lon - lonerr) + (lon + lonerr)) / 2 = lon ∧
      ((lat - laterr) + (lat + laterr)) / 2 = lat ∧
      ((lon + lonerr) - (lon - lonerr)) / 2 = lonerr ∧
      ((lat + laterr) - (lat - laterr)) / 2 = laterr ∧
      ∃ bits, geohashBits "ezs42".data = some bits ∧
        lat = ((decodeRanges bits ((-90, 90), (-180, 180), true)).1.1 +
               (decodeRanges bits ((-90, 90), (-180, 180), true)).1.2) / 2 ∧
        lon = ((decodeRanges bits ((-90, 90), (-180, 180), true)).2.1.1 +
               (decodeRanges bits ((-90, 90), (-180, 180), true)).2.1.2) / 2 ∧
        laterr = |(decodeRanges bits ((-90, 90), (-180, 180), true)).1.1 -
                  (decodeRanges bits ((-90, 90), (-180, 180), true)).1.2| / 2 ∧
        lonerr = |(decodeRanges bits ((-90, 90), (-180, 180), true)).2.1.1 -
                  (decodeRanges bits ((-90, 90), (-180, 180), true)).2.1.2| / 2) :=
  ⟨by decide, c4_decode_box "ezs42" (by decide)⟩

/-- C9: the empty string passes geohash validation, decodes to
(lat, lon) = (0, 0) with errors (90, 180) — the unbisected initial
intervals — and is routed through the geohash arm of the normalizer,
yielding the whole-globe bounding box. -/
theorem c9_empty_geohash :
    validateGeohash "" = true ∧
    geohashToCentroid "" = some (0, 0, 90, 180) ∧
    processInputValue (.str "") = .ok (.boxShape ⟨-180, -90, 180, 90⟩) := by
  have hval : validateGeohash "" = true := by decide
  have hbits : geohashBits "".data = some [] := by decide
  have hcent : geohashToCentroid "" = some (0, 0, 90, 180) := by
    unfold geohashToCentroid
    rw [hbits]
    simp only [Option.map_some', decodeRanges, Option.some.injEq, Prod.mk.injEq]
    norm_num [abs_eq_max_neg]
  have hshape : geohashToShape "" = some ⟨-180, -90, 180, 90⟩ := by
    unfold geohashToShape
    rw [hcent]
    simp only [Option.map_some', Option.some.injEq]
    norm_num
  refine ⟨hval, hcent, ?_⟩
  simp only [processInputValue, hval, if_true, hshape]

/-- C1, evaluated at the failing inputs: the pair `[100, 0]` has longitude
100 ∈ [-180, 180] and latitude 0 ∈ [-90, 90], so per the claim it must be
accepted, yet the code rejects it with the latitude out-of-range error
(the latitude check re-reads `value[0]`); conversely `[0, 200]` has
latitude 200 ∉ [-90, 90], so per the claim it must be rejected, yet the
code accepts it and builds `Point(0, 200)`. -/
theorem c1_code_eval :
    validateLatlonPair [100, 0] = .error .latOutOfRange ∧
    processInputValue (.numList [100, 0]) = .error .latOutOfRange ∧
    validateLatlonPair [0, 200] = .ok true ∧
    processInputValue (.numList [0, 200]) = .ok (.point 0 200) := by
  decide

/-- C7, evaluated at the failing input: a well-known-text string for the
supported `MULTILINESTRING` variant is not recognized by the router
(because the keyword list lost its `'MULTILINESTRING'` entry to implicit
string concatenation) and is rejected as unrecognized input, while the
other five supported-variant keywords are recognized. -/
theorem c7_code_eval :
    validateWellknowntext "MULTILINESTRING ((0 0, 1 1))" = false ∧
    processInputValue (.str "MULTILINESTRING ((0 0, 1 1))") = .error .stringUnrecognized ∧
    validateWellknowntext "POINT (0 0)" = true ∧
    validateWellknowntext "MULTIPOINT ((0 0))" = true ∧
    validateWellknowntext "LINESTRING (0 0, 1 1)" = true ∧
    validateWellknowntext "POLYGON ((0 0, 1 0, 1 1, 0 0))" = true ∧
    validateWellknowntext "MULTIPOLYGON (((0 0, 1 0, 1 1, 0 0)))" = true := by
  decide

/-! ## Workflow state machine (`theto.py`, `Theto._validate_workflow`)

`self.validation` is a dict of five booleans, one per stage, all `False` at
construction and each set to `True` exactly once by its stage method.
`_validate_workflow` checks the requested stage against the flags and
raises `WorkflowOrderError` (modelled as `some (PyErr.workflowOrder msg)`)
on the first violated rule, mirroring the order of the checks in the
source. -/

structure Validation where
  addSourceF : Bool
  addWidgetF : Bool
  preparePlotF : Bool
  addLayerF : Bool
  renderPlotF : Bool
deriving DecidableEq, Repr

/-- The initial validation dict: every stage flag `False`. -/
def Validation.initial : Validation := ⟨false, false, false, false, false⟩

/-- The stages `_validate_workflow` distinguishes. -/
inductive Stage where
  | addSourceS
  | addWidgetS
  | preparePlotS
  | addLayerS
  | renderPlotS
  | addPathS
  | addDataTableS
deriving DecidableEq, Repr

/-- `Theto._validate_workflow`, check for check in source order. -/
def validateWorkflow (stage : Stage) (v : Validation) : Option PyErr :=
  match stage with
  | .addSourceS =>
    if v.addWidgetF then some (.workflowOrder "New sources cannot be added after add_widget has been called.")
    else if v.preparePlotF then some (.workflowOrder "New sources cannot be added after prepare_plot has been called.")
    else if v.addLayerF then some (.workflowOrder "New sources cannot be added after add_layer has been called.")
    else if v.renderPlotF then some (.workflowOrder "Method render_plot has already been called. Start new workflow.")
    else none
  | .addWidgetS =>
    if !v.addSourceF then some (.workflowOrder "Method add_source must be called before adding a widget.")
    else if v.preparePlotF then some (.workflowOrder "New widgets cannot be added after prepare_plot has been called.")
    else if v.addLayerF then some (.workflowOrder "New widgets cannot be added after add_layer has been called.")
    else if v.renderPlotF then some (.workflowOrder "Method render_plot has already been called. Start new workflow.")
    else none
  | .preparePlotS =>
    if !v.addSourceF then some (.workflowOrder "Method add_source must be called before calling prepare_plot.")
    else if v.addLayerF then some (.workflowOrder "Plot cannot be prepared after add_layer has been called.")
    else if v.renderPlotF then some (.workflowOrder "Method render_plot has already been called. Start new workflow.")
    else none
  | .addLayerS =>
    if !v.addSourceF then some (.workflowOrder "Method add_source must be called before adding a layer.")
    else if !v.preparePlotF then some (.workflowOrder "New layers cannot be added after prepare_plot has been called.")
    else if v.renderPlotF then some (.workflowOrder "Method render_plot has already been called. Start new workflow.")
    else none
  | .renderPlotS =>
    if !v.addSourceF then some (.workflowOrder "Method add_source must be called before rendering the plot.")
    else if !v.preparePlotF then some (.workflowOrder "Method prepare_plot must be called before rendering the plot.")
    else if !v.addLayerF then some (.workflowOrder "Method add_layer must be called before rendering the plot.")
    else none
  | .addPathS =>
    if !v.addSourceF then some (.workflowOrder "Method add_source must be called before adding a path.")
    else if !v.preparePlotF then some (.workflowOrder "Method prepare_plot must be called before adding a path.")
    else if v.renderPlotF then some (.workflowOrder "Method render_plot has already been called. Start new workflow.")
    else if v.addWidgetF then some (.workflowOrder "Plot contains widgets, which are not compatible with paths.")
    else none
  | .addDataTableS =>
    if !v.addSourceF then some (.workflowOrder "Method add_source must be called before adding a data table.")
    else if !v.preparePlotF then some (.workflowOrder "Method prepare_plot must be called before adding a data table.")
    else if v.renderPlotF then some (.workflowOrder "Method render_plot has already been called. Start new workflow.")
    else none

/-- C3 counterexample: in the rendered state (all flags of a completed
session set, `render_plot = True`), calling `render_plot` again passes
workflow validation — no `WorkflowOrderError` is raised — contradicting the
claim that after rendering every stage invocation, render itself included,
fails.  (`render_plot`'s checks only require `add_source`, `prepare_plot`
and `add_layer` to be `True`; no check looks at the `render_plot` flag.) -/
theorem c3_counterexample :
    validateWorkflow .renderPlotS ⟨true, false, true, true, true⟩ = none := by
  decide

/-- C3 amended: `add_layer` before `prepare_plot` fails with
`WorkflowOrderError`; `render` before `add_layer` fails; after the session
is rendered, `add_source`, `add_widget`, `prepare_plot`, `add_layer` and
`add_path` all fail — but `render_plot` itself passes workflow validation
exactly when `add_source`, `prepare_plot` and `add_layer` have all run, so
a rendered session does not block a second `render_plot` call. -/
theorem c3_amended (v : Validation) :
    (v.preparePlotF = false → (validateWorkflow .addLayerS v).isSome = true) ∧
    (v.addLayerF = false → (validateWorkflow .renderPlotS v).isSome = true) ∧
    (v.renderPlotF = true →
      (validateWorkflow .addSourceS v).isSome = true ∧
      (validateWorkflow .addWidgetS v).isSome = true ∧
      (validateWorkflow .preparePlotS v).isSome = true ∧
      (validateWorkflow .addLayerS v).isSome = true ∧
      (validateWorkflow .addPathS v).isSome = true) ∧
    (validateWorkflow .renderPlotS v = none ↔
      v.addSourceF = true ∧ v.preparePlotF = true ∧ v.addLayerF = true) := by
  rcases v with ⟨a, b, c, d, e⟩
  revert a b c d e
  decide

/-- Witness for C3 at concrete validation states. -/
theorem c3_witness :
    (validateWorkflow .addSourceS ⟨true, true, true, true, true⟩).isSome = true ∧
    (validateWorkflow .addLayerS ⟨true, false, false, false, false⟩).isSome = true ∧
    (validateWorkflow .renderPlotS ⟨true, false, true, false, false⟩).isSome = true :=
  ⟨((c3_amended ⟨true, true, true, true, true⟩).2.2.1 rfl).1,
   (c3_amended ⟨true, false, false, false, false⟩).1 rfl,
   (c3_amended ⟨true, false, true, false, false⟩).2.1 rfl⟩

/-! ## Categorical color assignment (`color_utils.py`, `assign_colors`)

The categorical branch of `assign_colors` (taken when `check_numeric` is
false, i.e. for string-valued arrays).  Values and palette colors are
Python strings.  `set(color_arr)` has unspecified iteration order in
Python; it is modelled by first-occurrence deduplication — the properties
proved below do not depend on the enumeration order.  `val_count_dict` is
an insertion-ordered dict of occurrence counts;
`sorted(val_count_dict.items(), reverse=True)` sorts the `(value, count)`
pairs lexicographically — i.e. by value, descending (the counts are
compared only on equal values, which cannot happen for distinct dict keys)
— so the embedding sorts by descending value. -/

/-- Python string comparison: lexicographic on code points. -/
def charListLt : List Char → List Char → Bool
  | [], [] => false
  | [], _ :: _ => true
  | _ :: _, [] => false
  | a :: as, b :: bs =>
    if a.val < b.val then true
    else if b.val < a.val then false
    else charListLt as bs

def pyStrLt (a b : String) : Bool := charListLt a.data b.data

/-- `set(color_arr)` enumerated in first-occurrence order. -/
def valueSet (arr : List String) : List String :=
  arr.foldl (fun acc v => if v ∈ acc then acc else acc ++ [v]) []

/-- `val_count_dict`: occurrence counts, keys in insertion order. -/
def valCountList (arr : List String) : List (String × ℕ) :=
  arr.foldl (fun acc v =>
    if acc.any (fun p => p.1 == v) then
      acc.map fun p => if p.1 == v then (p.1, p.2 + 1) else p
    else acc ++ [(v, 1)]) []

def insertPairDesc (p : String × ℕ) : List (String × ℕ) → List (String × ℕ)
  | [] => [p]
  | q :: qs => if pyStrLt q.1 p.1 then p :: q :: qs else q :: insertPairDesc p qs

/-- `sorted(val_count_dict.items(), reverse=True)`: pairs in descending
value order (all keys distinct). -/
def sortPairsDesc (l : List (String × ℕ)) : List (String × ℕ) :=
  l.foldr insertPairDesc []

/-- The long-tail loop: `color_dict[val] = categorical_palette[n]`, with
`n` incremented only while `n < palette_length - 1`. -/
def buildTailDict : List (String × ℕ) → List String → ℕ → List (String × String)
  | [], _, _ => []
  | (val, _) :: rest, pal, n =>
    (val, pal.getD n "") :: buildTailDict rest pal (if n < pal.length - 1 then n + 1 else n)

/-- Python dict lookup on an association list with distinct keys. -/
def lookupDict (d : List (String × String)) (k : String) : Option String :=
  (d.find? fun p => p.1 == k).map Prod.snd

/-- The `color_dict` built by the categorical branch of `assign_colors`. -/
def catColorDict (arr : List String) (palette : List String) : List (String × String) :=
  let vs := valueSet arr
  let nColors := vs.length
  let palLength := palette.length
  if nColors ≤ palLength then vs.zip (palette.take nColors)
  else buildTailDict (sortPairsDesc (valCountList arr)) palette 0

/-- `[color_dict[v] for v in color_arr]`. -/
def assignColorsCat (arr : List String) (palette : List String) : List String :=
  arr.map fun v => (lookupDict (catColorDict arr palette) v).getD ""

/-- C2, evaluated at the failing input `values = ["a","b","b","c"]`,
`palette = [p0, p1]`: the most frequent value `"b"` (2 occurrences) is
claimed to get the first palette color `p0`, with ties `"a"`, `"c"` sharing
the last color `p1` — result `[p1, p0, p0, p1]`.  The code instead ranks by
descending value (it sorts the `(value, count)` items lexicographically,
never consulting the counts it just computed), so `"c"` gets `p0` and both
`"b"` and `"a"` fall into the tail — result `[p1, p1, p1, p0]`. -/
theorem c2_code_eval :
    assignColorsCat ["a", "b", "b", "c"] ["#e41a1c", "#377eb8"] =
      ["#377eb8", "#377eb8", "#377eb8", "#e41a1c"] ∧
    assignColorsCat ["a", "b", "b", "c"] ["#e41a1c", "#377eb8"] ≠
      ["#377eb8", "#e41a1c", "#e41a1c", "#377eb8"] := by
  decide

theorem getD_mem_of_lt {α : Type} (l : List α) (i : ℕ) (d : α) (h : i < l.length) :
    l.getD i d ∈ l := by
  induction l generalizing i with
  | nil => exact absurd h (by simp)
  | cons a l ih =>
    cases i with
    | zero => exact List.mem_cons_self _ _
    | succ j => exact List.mem_cons_of_mem _ (ih j (by simpa using h))

theorem getD_eq_get_of_lt {α : Type} (l : List α) (d : α) (i : ℕ) (h : i < l.length) :
    l.getD i d = l.get ⟨i, h⟩ := by
  induction l generalizing i with
  | nil => exact absurd h (by simp)
  | cons a l ih =>
    cases i with
    | zero => rfl
    | succ j => exact ih j (by simpa using h)

theorem valueSet_nodup (arr : List String) : (valueSet arr).Nodup := by
  suffices h : ∀ acc : List String, acc.Nodup →
      (arr.foldl (fun acc v => if v ∈ acc then acc else acc ++ [v]) acc).Nodup by
    exact h [] List.nodup_nil
  induction arr with
  | nil => intro acc hacc; exact hacc
  | cons v vs ih =>
    intro acc hacc
    simp only [List.foldl_cons]
    by_cases hv : v ∈ acc
    · rw [if_pos hv]; exact ih acc hacc
    · rw [if_neg hv]
      refine ih _ ?_
      rw [List.nodup_append]
      exact ⟨hacc, List.nodup_singleton v, by simpa using fun hmem => hv hmem⟩

theorem lookupDict_zip (ks cs : List String) (hnd : ks.Nodup) (hlen : ks.length = cs.length) :
    ∀ i : ℕ, i < ks.length →
      lookupDict (ks.zip cs) (ks.getD i "") = some (cs.getD i "") := by
  induction ks generalizing cs with
  | nil => intro i hi; exact absurd hi (by simp)
  | cons k ks ih =>
    intro i hi
    cases cs with
    | nil => exact absurd hlen (by simp)
    | cons c cs =>
      cases i with
      | zero => simp [lookupDict, List.find?]
      | succ j =>
        have hj : j < ks.length := by simpa using hi
        have hne : (k == ks.getD j "") = false := by
          have hmem : ks.getD j "" ∈ ks := getD_mem_of_lt ks j "" hj
          have hneq : k ≠ ks.getD j "" := by
            intro heq
            exact (List.nodup_cons.mp hnd).1 (heq ▸ hmem)
          simpa using hneq
        have hrec := ih cs (List.nodup_cons.mp hnd).2 (by simpa using hlen) j hj
        have hgk : (k :: ks).getD (j + 1) "" = ks.getD j "" := rfl
        have hgc : (c :: cs).getD (j + 1) "" = cs.getD j "" := rfl
        rw [hgk, hgc]
        have hfind : List.find? (fun p => p.1 == ks.getD j "") ((k, c) :: ks.zip cs) =
            List.find? (fun p => p.1 == ks.getD j "") (ks.zip cs) :=
          List.find?_cons_of_neg _ (by simpa using hne)
        show (List.find? (fun p => p.1 == ks.getD j "") ((k, c) :: ks.zip cs)).map Prod.snd =
          some (cs.getD j "")
        rw [hfind]
        exact hrec

/-- C8: when the number of distinct values equals the palette size (and the
palette itself has no repeated colors), the categorical assignment is a
bijection between distinct values and palette colors: distinct values never
share a color, and every palette color is used. -/
theorem c8_bijection (arr palette : List String)
    (h1 : (valueSet arr).length = palette.length) (h2 : palette.Nodup) :
    (∀ v1 ∈ valueSet arr, ∀ v2 ∈ valueSet arr,
      lookupDict (catColorDict arr palette) v1 = lookupDict (catColorDict arr palette) v2 →
      v1 = v2) ∧
    (∀ c ∈ palette, ∃ v ∈ valueSet arr,
      lookupDict (catColorDict arr palette) v = some c) := by
  have hdict : catColorDict arr palette = (valueSet arr).zip palette := by
    unfold catColorDict
    rw [if_pos (le_of_eq h1), h1, List.take_length]
  have hnd := valueSet_nodup arr
  constructor
  · intro v1 hm1 v2 hm2 heq
    have hi1 : (valueSet arr).indexOf v1 < (valueSet arr).length :=
      List.indexOf_lt_length.mpr hm1
    have hi2 : (valueSet arr).indexOf v2 < (valueSet arr).length :=
      List.indexOf_lt_length.mpr hm2
    have hv1 : (valueSet arr).getD ((valueSet arr).indexOf v1) "" = v1 := by
      rw [getD_eq_get_of_lt _ "" _ hi1]
      exact List.indexOf_get hi1
    have hv2 : (valueSet arr).getD ((valueSet arr).indexOf v2) "" = v2 := by
      rw [getD_eq_get_of_lt _ "" _ hi2]
      exact List.indexOf_get hi2
    rw [hdict, ← hv1, ← hv2, lookupDict_zip _ _ hnd h1 _ hi1,
      lookupDict_zip _ _ hnd h1 _ hi2] at heq
    have hpal : palette.get ⟨(valueSet arr).indexOf v1, h1 ▸ hi1⟩ =
        palette.get ⟨(valueSet arr).indexOf v2, h1 ▸ hi2⟩ := by
      have hp1 := getD_eq_get_of_lt palette "" _ (h1 ▸ hi1)
      have hp2 := getD_eq_get_of_lt palette "" _ (h1 ▸ hi2)
      rw [← hp1, ← hp2]
      exact Option.some.injEq _ _ ▸ heq
    have hij := (List.Nodup.get_inj_iff h2).mp hpal
    have hval : (valueSet arr).indexOf v1 = (valueSet arr).indexOf v2 := by
      simpa using congrArg Fin.val hij
    rw [← hv1, ← hv2, hval]
  · intro c hc
    have hic : palette.indexOf c < palette.length := List.indexOf_lt_length.mpr hc
    have hiv : palette.indexOf c < (valueSet arr).length := h1 ▸ hic
    refine ⟨(valueSet arr).getD (palette.indexOf c) "", getD_mem_of_lt _ _ "" hiv, ?_⟩
    rw [hdict, lookupDict_zip _ _ hnd h1 _ hiv]
    have hcolor : palette.getD (palette.indexOf c) "" = c := by
      rw [getD_eq_get_of_lt _ "" _ hic]
      exact List.indexOf_get hic
    rw [hcolor]

/-- Witness for C8: a concrete two-value array and two-color palette. -/
theorem c8_witness :
    ∃ v ∈ valueSet ["x", "y", "x"],
      lookupDict (catColorDict ["x", "y", "x"] ["#111111", "#222222"]) v = some "#222222" :=
  (c8_bijection ["x", "y", "x"] ["#111111", "#222222"] (by decide) (by decide)).2
    "#222222" (by decide)

/-! ## Continuous color gradient (`color_utils.py`, `color_gradient`)

Colors are modelled at RGB level as integer channel triples (`hex_to_rgb` /
`rgb_to_hex` translate bijectively between well-formed six-digit hex
strings and such triples); `rgb_to_hex`'s `int(x)` truncation toward zero
is `pyInt`.  numpy boolean-mask reads are `List.filter`, boolean-mask
assignments are `maskAssign`. -/

/-- Python `min(x)` on a nonempty list (never called on an empty one by the
source; the `[]` branch is an arbitrary total-function default). -/
def pyListMin : List ℚ → ℚ
  | [] => 0
  | x :: xs => xs.foldl min x

/-- Python `max(x)` on a nonempty list. -/
def pyListMax : List ℚ → ℚ
  | [] => 0
  | x :: xs => xs.foldl max x

/-- The pointwise formula of `minmax_scale`:
`(x - (domain[1] + domain[0]) / 2) / (domain[1] - domain[0])` scaled to
`out_range = (lo, hi)`. -/
def scaleCode (dmin dmax lo hi v : ℚ) : ℚ :=
  (v - (dmax + dmin) / 2) / (dmax - dmin) * (hi - lo) + (hi + lo) / 2

/-- `minmax_scale(x, out_range=(lo, hi))`. -/
def minmaxScale (x : List ℚ) (lo hi : ℚ) : List ℚ :=
  x.map (scaleCode (pyListMin x) (pyListMax x) lo hi)

/-- Python `int(q)`: truncation toward zero. -/
def pyInt (q : ℚ) : ℤ := if 0 ≤ q then ⌊q⌋ else ⌈q⌉

/-- One interpolated color `(a[j] + t * (b[j] - a[j]))` for the three RGB
channels, integerized as by `rgb_to_hex`. -/
def gradientColor (a b : ℤ × ℤ × ℤ) (t : ℚ) : ℤ × ℤ × ℤ :=
  (pyInt ((a.1 : ℚ) + t * ((b.1 : ℚ) - (a.1 : ℚ))),
   pyInt ((a.2.1 : ℚ) + t * ((b.2.1 : ℚ) - (a.2.1 : ℚ))),
   pyInt ((a.2.2 : ℚ) + t * ((b.2.2 : ℚ) - (a.2.2 : ℚ))))

/-- numpy boolean-mask assignment `orig[mask] = vals`: masked positions
receive the successive elements of `vals`, in order. -/
def maskAssign {α : Type} : List α → List Bool → List α → List α
  | [], _, _ => []
  | o :: os, [], _ => o :: os
  | o :: os, b :: bs, vals =>
    if b then
      match vals with
      | [] => o :: maskAssign os bs []
      | v :: vs => v :: maskAssign os bs vs
    else o :: maskAssign os bs vals

/-- `color_gradient(vals, start_hex, end_hex, mid_hex='#ffffff', trans)`.
When values span both signs the array is split at zero (both subsets keep
the zeros), each subset is min-max rescaled to `[0, 1]` (after the optional
`trans`, applied to a rescale into `(1e-10, 10)`), the positive subset is
interpolated `mid → end` and assigned into the `0 ≤ v` positions, then the
negative subset is interpolated `start → mid` and assigned into the
`v ≤ 0` positions (overwriting the zeros). -/
def colorGradient (vals : List ℚ) (s f m : ℤ × ℤ × ℤ) (tr : Option (ℚ → ℚ)) :
    List (ℤ × ℤ × ℤ) :=
  let hasNeg := decide (pyListMin vals < 0)
  let hasPos := decide (0 < pyListMax vals)
  if hasNeg && hasPos then
    let sarrNeg := vals.filter fun v => decide (v ≤ 0)
    let sarrPos := vals.filter fun v => decide (0 ≤ v)
    let sarrPos2 := match tr with
      | some t => (minmaxScale sarrPos (1 / 10 ^ 10) 10).map t
      | none => sarrPos
    let sarrNeg2 := match tr with
      | some t => (minmaxScale sarrNeg (1 / 10 ^ 10) 10).map t
      | none => sarrNeg
    let posColors := (minmaxScale sarrPos2 0 1).map (gradientColor m f)
    let negColors := (minmaxScale sarrNeg2 0 1).map (gradientColor s m)
    let init := vals.map fun _ => m
    let afterPos := maskAssign init (vals.map fun v => decide (0 ≤ v)) posColors
    maskAssign afterPos (vals.map fun v => decide (v ≤ 0)) negColors
  else
    let sarr2 := match tr with
      | some t => (minmaxScale vals (1 / 10 ^ 10) 10).map t
      | none => vals
    (minmaxScale sarr2 0 1).map (gradientColor s f)

theorem maskAssign_length {α : Type} :
    ∀ (orig : List α) (mask : List Bool) (vals : List α),
      (maskAssign orig mask vals).length = orig.length := by
  intro orig
  induction orig with
  | nil => intro mask vals; rfl
  | cons o os ih =>
    intro mask vals
    cases mask with
    | nil => rfl
    | cons b bs =>
      by_cases hb : b = true
      · subst hb
        cases vals with
        | nil => simp [maskAssign, ih]
        | cons v vs => simp [maskAssign, ih]
      · have hb2 : b = false := by
          cases b
          · rfl
          · exact absurd rfl hb
        subst hb2
        simp [maskAssign, ih]

theorem maskAssign_getD {α : Type} (d : α) (pb : ℚ → Bool) (g : ℚ → α) :
    ∀ (src : List ℚ) (orig : List α), orig.length = src.length →
      ∀ i : ℕ, i < src.length →
        (maskAssign orig (src.map pb) ((src.filter pb).map g)).getD i d =
          if pb (src.getD i 0) then g (src.getD i 0) else orig.getD i d := by
  intro src
  induction src with
  | nil => intro orig hlen i hi; exact absurd hi (by simp)
  | cons v vs ih =>
    intro orig hlen i hi
    cases orig with
    | nil => exact absurd hlen (by simp)
    | cons o os =>
      have hlen2 : os.length = vs.length := by simpa using hlen
      by_cases hv : pb v = true
      · have hfilter : (v :: vs).filter pb = v :: vs.filter pb := by
          simp [List.filter_cons, hv]
        cases i with
        | zero => simp [maskAssign, hfilter, List.map_cons, hv]
        | succ j =>
          have hj : j < vs.length := by simpa using hi
          have hrec := ih os hlen2 j hj
          simpa [maskAssign, hfilter, List.map_cons, hv] using hrec
      · have hv2 : pb v = false := by
          cases hpb : pb v
          · rfl
          · exact absurd hpb hv
        have hfilter : (v :: vs).filter pb = vs.filter pb := by
          simp [List.filter_cons, hv2]
        cases i with
        | zero => simp [maskAssign, hfilter, List.map_cons, hv2]
        | succ j =>
          have hj : j < vs.length := by simpa using hi
          have hrec := ih os hlen2 j hj
          simpa [maskAssign, hfilter, List.map_cons, hv2] using hrec

theorem pyInt_intCast (n : ℤ) : pyInt (n : ℚ) = n := by
  unfold pyInt
  split
  · exact Int.floor_intCast n
  · exact Int.ceil_intCast n

theorem gradientColor_one (a b : ℤ × ℤ × ℤ) : gradientColor a b 1 = b := by
  unfold gradientColor
  have e1 : ((a.1 : ℚ) + 1 * ((b.1 : ℚ) - (a.1 : ℚ))) = ((b.1 : ℚ)) := by ring
  have e2 : ((a.2.1 : ℚ) + 1 * ((b.2.1 : ℚ) - (a.2.1 : ℚ))) = ((b.2.1 : ℚ)) := by ring
  have e3 : ((a.2.2 : ℚ) + 1 * ((b.2.2 : ℚ) - (a.2.2 : ℚ))) = ((b.2.2 : ℚ)) := by ring
  rw [e1, e2, e3, pyInt_intCast, pyInt_intCast, pyInt_intCast]

theorem scaleCode_eq_std (dmin dmax v : ℚ) (h : dmin < dmax) :
    scaleCode dmin dmax 0 1 v = (v - dmin) / (dmax - dmin) := by
  unfold scaleCode
  have hne : dmax - dmin ≠ 0 := by
    intro h0
    rw [sub_eq_zero] at h0
    exact absurd h0 (ne_of_gt h)
  field_simp
  ring

theorem foldl_min_le_init : ∀ (xs : List ℚ) (x : ℚ), xs.foldl min x ≤ x := by
  intro xs
  induction xs with
  | nil => intro x; exact le_refl x
  | cons y ys ih =>
    intro x
    exact le_trans (ih (min x y)) (min_le_left x y)

theorem foldl_min_le_mem : ∀ (xs : List ℚ) (x a : ℚ), a ∈ xs → xs.foldl min x ≤ a := by
  intro xs
  induction xs with
  | nil => intro x a ha; exact absurd ha (by simp)
  | cons y ys ih =>
    intro x a ha
    rcases List.mem_cons.mp ha with h | h
    · subst h
      exact le_trans (foldl_min_le_init ys (min x a)) (min_le_right x a)
    · exact ih (min x y) a h

theorem pyListMin_le (l : List ℚ) (a : ℚ) (h : a ∈ l) : pyListMin l ≤ a := by
  cases l with
  | nil => exact absurd h (by simp)
  | cons x xs =>
    rcases List.mem_cons.mp h with h2 | h2
    · subst h2; exact foldl_min_le_init xs a
    · exact foldl_min_le_mem xs x a h2

theorem init_le_foldl_max : ∀ (xs : List ℚ) (x : ℚ), x ≤ xs.foldl max x := by
  intro xs
  induction xs with
  | nil => intro x; exact le_refl x
  | cons y ys ih =>
    intro x
    exact le_trans (le_max_left x y) (ih (max x y))

theorem mem_le_foldl_max : ∀ (xs : List ℚ) (x a : ℚ), a ∈ xs → a ≤ xs.foldl max x := by
  intro xs
  induction xs with
  | nil => intro x a ha; exact absurd ha (by simp)
  | cons y ys ih =>
    intro x a ha
    rcases List.mem_cons.mp ha with h | h
    · subst h
      exact le_trans (le_max_right x a) (init_le_foldl_max ys (max x a))
    · exact ih (max x y) a h

theorem le_pyListMax (l : List ℚ) (a : ℚ) (h : a ∈ l) : a ≤ pyListMax l := by
  cases l with
  | nil => exact absurd h (by simp)
  | cons x xs =>
    rcases List.mem_cons.mp h with h2 | h2
    · subst h2; exact init_le_foldl_max xs a
    · exact mem_le_foldl_max xs x a h2

theorem foldl_max_le : ∀ (xs : List ℚ) (x c : ℚ), x ≤ c → (∀ a ∈ xs, a ≤ c) →
    xs.foldl max x ≤ c := by
  intro xs
  induction xs with
  | nil => intro x c hx _; exact hx
  | cons y ys ih =>
    intro x c hx hall
    refine ih (max x y) c (max_le hx (hall y (List.mem_cons_self y ys))) ?_
    intro a ha
    exact hall a (List.mem_cons_of_mem y ha)

theorem pyListMax_le (l : List ℚ) (c : ℚ) (hne : l ≠ []) (h : ∀ a ∈ l, a ≤ c) :
    pyListMax l ≤ c := by
  cases l with
  | nil => exact absurd rfl hne
  | cons x xs =>
    exact foldl_max_le xs x c (h x (List.mem_cons_self x xs)) fun a ha =>
      h a (List.mem_cons_of_mem x ha)

theorem foldl_min_mem : ∀ (xs : List ℚ) (x : ℚ), xs.foldl min x = x ∨ xs.foldl min x ∈ xs := by
  intro xs
  induction xs with
  | nil => intro x; exact Or.inl rfl
  | cons y ys ih =>
    intro x
    rcases ih (min x y) with h | h
    · rcases min_choice x y with h2 | h2
      · exact Or.inl (h.trans h2)
      · exact Or.inr (by rw [List.foldl_cons, h, h2]; exact List.mem_cons_self y ys)
    · exact Or.inr (List.mem_cons_of_mem y h)

theorem pyListMin_mem (l : List ℚ) (hne : l ≠ []) : pyListMin l ∈ l := by
  cases l with
  | nil => exact absurd rfl hne
  | cons x xs =>
    rcases foldl_min_mem xs x with h | h
    · rw [pyListMin, h]; exact List.mem_cons_self x xs
    · exact List.mem_cons_of_mem x h

theorem doubleMask_getD (vals : List ℚ) (mC : ℤ × ℤ × ℤ) (gP gN : ℚ → ℤ × ℤ × ℤ)
    (i : ℕ) (hi : i < vals.length) :
    (maskAssign
      (maskAssign (vals.map fun _ => mC) (vals.map fun v => decide (0 ≤ v))
        ((vals.filter fun v => decide (0 ≤ v)).map gP))
      (vals.map fun v => decide (v ≤ 0))
      ((vals.filter fun v => decide (v ≤ 0)).map gN)).getD i (0, 0, 0) =
    if vals.getD i 0 ≤ 0 then gN (vals.getD i 0) else gP (vals.getD i 0) := by
  have hlenInit : (vals.map fun _ : ℚ => mC).length = vals.length := by simp
  have hlenAfter :
      (maskAssign (vals.map fun _ => mC) (vals.map fun v => decide (0 ≤ v))
        ((vals.filter fun v => decide (0 ≤ v)).map gP)).length = vals.length := by
    rw [maskAssign_length]; exact hlenInit
  have h1 := maskAssign_getD ((0, 0, 0) : ℤ × ℤ × ℤ) (fun v => decide (v ≤ 0)) gN vals _
    hlenAfter i hi
  have h2 := maskAssign_getD ((0, 0, 0) : ℤ × ℤ × ℤ) (fun v => decide (0 ≤ v)) gP vals _
    hlenInit i hi
  rw [h1]
  by_cases hv : vals.getD i 0 ≤ 0
  · rw [if_pos (decide_eq_true hv), if_pos hv]
  · have hv2 : 0 ≤ vals.getD i 0 := le_of_lt (lt_of_not_le hv)
    rw [if_neg (by simpa using hv), h2, if_pos (decide_eq_true hv2), if_neg hv]

/-- C6: when the values span both signs, every zero value maps exactly to
`mid_color`; every negative value gets the `start → mid` interpolation at
parameter `(v - min) / (max - min)` of the nonpositive subset; every
positive value gets the `mid → end` interpolation at the corresponding
parameter of the nonnegative subset (each subset min-max rescaled to
`[0, 1]` independently; the nondegeneracy guards exclude the
division-by-zero case where a subset has equal min and max, in which the
Python code produces NaN colors). -/
theorem c6_gradient (vals : List ℚ) (s f m : ℤ × ℤ × ℤ)
    (hneg : pyListMin vals < 0) (hpos : 0 < pyListMax vals) :
    (colorGradient vals s f m none).length = vals.length ∧
    (∀ i : ℕ, i < vals.length → vals.getD i 0 = 0 →
      (colorGradient vals s f m none).getD i (0, 0, 0) = m) ∧
    (∀ i : ℕ, i < vals.length → vals.getD i 0 < 0 →
      pyListMin (vals.filter fun v => decide (v ≤ 0)) <
        pyListMax (vals.filter fun v => decide (v ≤ 0)) →
      (colorGradient vals s f m none).getD i (0, 0, 0) =
        gradientColor s m
          ((vals.getD i 0 - pyListMin (vals.filter fun v => decide (v ≤ 0))) /
            (pyListMax (vals.filter fun v => decide (v ≤ 0)) -
              pyListMin (vals.filter fun v => decide (v ≤ 0))))) ∧
    (∀ i : ℕ, i < vals.length → 0 < vals.getD i 0 →
      pyListMin (vals.filter fun v => decide (0 ≤ v)) <
        pyListMax (vals.filter fun v => decide (0 ≤ v)) →
      (colorGradient vals s f m none).getD i (0, 0, 0) =
        gradientColor m f
          ((vals.getD i 0 - pyListMin (vals.filter fun v => decide (0 ≤ v))) /
            (pyListMax (vals.filter fun v => decide (0 ≤ v)) -
              pyListMin (vals.filter fun v => decide (0 ≤ v))))) := by
  have hcond : (decide (pyListMin vals < 0) && decide (0 < pyListMax vals)) = true := by
    simp only [Bool.and_eq_true, decide_eq_true_eq]
    exact ⟨hneg, hpos⟩
  have hgrad : colorGradient vals s f m none =
      maskAssign
        (maskAssign (vals.map fun _ => m) (vals.map fun v => decide (0 ≤ v))
          ((vals.filter fun v => decide (0 ≤ v)).map fun v =>
            gradientColor m f
              (scaleCode (pyListMin (vals.filter fun v => decide (0 ≤ v)))
                (pyListMax (vals.filter fun v => decide (0 ≤ v))) 0 1 v)))
        (vals.map fun v => decide (v ≤ 0))
        ((vals.filter fun v => decide (v ≤ 0)).map fun v =>
          gradientColor s m
            (scaleCode (pyListMin (vals.filter fun v => decide (v ≤ 0)))
              (pyListMax (vals.filter fun v => decide (v ≤ 0))) 0 1 v)) := by
    simp only [colorGradient, minmaxScale, List.map_map, hcond, if_true, Function.comp]
    rfl
  have hout : ∀ i : ℕ, i < vals.length →
      (colorGradient vals s f m none).getD i (0, 0, 0) =
        if vals.getD i 0 ≤ 0 then
          gradientColor s m
            (scaleCode (pyListMin (vals.filter fun v => decide (v ≤ 0)))
              (pyListMax (vals.filter fun v => decide (v ≤ 0))) 0 1 (vals.getD i 0))
        else
          gradientColor m f
            (scaleCode (pyListMin (vals.filter fun v => decide (0 ≤ v)))
              (pyListMax (vals.filter fun v => decide (0 ≤ v))) 0 1 (vals.getD i 0)) := by
    intro i hi
    rw [hgrad]
    exact doubleMask_getD vals m _ _ i hi
  refine ⟨?_, ?_, ?_, ?_⟩
  · rw [hgrad, maskAssign_length, maskAssign_length]
    simp
  · -- zero values map exactly to the mid color
    intro i hi hz
    have hzmem : (0 : ℚ) ∈ vals := hz ▸ getD_mem_of_lt vals i 0 hi
    have hzneg : (0 : ℚ) ∈ vals.filter fun v => decide (v ≤ 0) :=
      List.mem_filter.mpr ⟨hzmem, by simp⟩
    have hnegne : (vals.filter fun v => decide (v ≤ 0)) ≠ [] :=
      List.ne_nil_of_mem hzneg
    have hminmem : pyListMin vals ∈ vals := pyListMin_mem vals (by
      intro hemp
      rw [hemp] at hneg
      simp [pyListMin] at hneg)
    have hminneg : pyListMin vals ∈ vals.filter fun v => decide (v ≤ 0) :=
      List.mem_filter.mpr ⟨hminmem, decide_eq_true (le_of_lt hneg)⟩
    have hnmin : pyListMin (vals.filter fun v => decide (v ≤ 0)) < 0 :=
      lt_of_le_of_lt (pyListMin_le _ _ hminneg) hneg
    have hnmax : pyListMax (vals.filter fun v => decide (v ≤ 0)) = 0 := by
      refine le_antisymm ?_ (le_pyListMax _ 0 hzneg)
      refine pyListMax_le _ 0 hnegne ?_
      intro a ha
      exact of_decide_eq_true (List.mem_filter.mp ha).2
    have hscale :
        scaleCode (pyListMin (vals.filter fun v => decide (v ≤ 0)))
          (pyListMax (vals.filter fun v => decide (v ≤ 0))) 0 1 0 = 1 := by
      rw [scaleCode_eq_std _ _ _ (by rw [hnmax]; exact hnmin), hnmax]
      rw [div_self]
      intro h0
      rw [sub_eq_zero] at h0
      exact absurd h0.symm (ne_of_lt hnmin)
    rw [hout i hi, hz]
    rw [if_pos le_rfl, hscale, gradientColor_one]
  · -- negative values: start → mid interpolation
    intro i hi hv hnd
    rw [hout i hi, if_pos (le_of_lt hv), scaleCode_eq_std _ _ _ hnd]
  · -- positive values: mid → end interpolation
    intro i hi hv hnd
    rw [hout i hi, if_neg (not_le_of_gt hv), scaleCode_eq_std _ _ _ hnd]

/-- Witness for C6: `gradient([-5, 0, 5], start, end, mid)` maps the zero
in the middle position exactly to the mid color. -/
theorem c6_witness :
    (colorGradient [-5, 0, 5] (228, 26, 28) (55, 126, 184) (255, 255, 255) none).getD 1
      (0, 0, 0) = (255, 255, 255) :=
  (c6_gradient [-5, 0, 5] (228, 26, 28) (55, 126, 184) (255, 255, 255)
      (by norm_num [pyListMin, min_def]) (by norm_num [pyListMax, max_def])).2.1 1
    (by norm_num) (by norm_num)

/-! ## Greedy farthest-point ordering (`color_utils.py`, `order_records`)

`order_records` keeps a boolean "unvisited" vector `inds`, a `current`
index and the visit order `ind_order`; each iteration marks `current`
visited, appends it, computes the distances from `current` to every
record with visited entries forced to `-1`, and jumps to `argmax(dists)`.

The source computes Euclidean distances `(...).sum(axis=1) ** 0.5`; the
square root is strictly monotone on nonnegatives and the masked entries
are `-1 < 0`, so `argmax` over the squared distances selects the same
index — the embedding keeps the squared distances to stay in exact
rationals. -/

/-- Squared Euclidean distance between two records. -/
def sqDistQ (p q : ℚ × ℚ) : ℚ := (p.1 - q.1) ^ 2 + (p.2 - q.2) ^ 2

/-- Tail of numpy `argmax`: scan the remaining entries, strictly greater
values displacing the incumbent (so the first maximum wins). -/
def argmaxAux : List ℚ → ℚ → ℕ → ℕ → ℕ
  | [], _, _, best => best
  | x :: xs, bv, i, best =>
    if bv < x then argmaxAux xs x (i + 1) i else argmaxAux xs bv (i + 1) best

/-- numpy `argmax`: index of the first occurrence of the maximum (numpy
returns 0 on our unreachable empty case). -/
def npArgmax : List ℚ → ℕ
  | [] => 0
  | x :: xs => argmaxAux xs x 1 0

/-- `dists` after `dists[~inds] = -1`: squared distance from `cur` for
unvisited records, `-1` for visited ones. -/
def distsList (pts : List (ℚ × ℚ)) (cur : ℕ) (inds : List Bool) : List ℚ :=
  (List.range pts.length).map fun i =>
    if inds.getD i false then sqDistQ (pts.getD cur (0, 0)) (pts.getD i (0, 0)) else -1

structure OrderState where
  inds : List Bool
  current : ℕ
  indOrder : List ℕ
deriving Repr

/-- One iteration of the `while any(inds)` loop body. -/
def orderStep (pts : List (ℚ × ℚ)) (s : OrderState) : OrderState :=
  let inds2 := s.inds.set s.current false
  let dists := distsList pts s.current inds2
  ⟨inds2, npArgmax dists, s.indOrder ++ [s.current]⟩

/-- The `while any(inds)` loop, run with explicit fuel (the claim that `n`
units of fuel exhaust the loop is part of what is proved). -/
def orderLoop (pts : List (ℚ × ℚ)) : ℕ → OrderState → OrderState
  | 0, s => s
  | fuel + 1, s => if s.inds.any id then orderLoop pts fuel (orderStep pts s) else s

/-- Python dict lookup built from a pair list (later duplicates win, as in
`dict(zip(...))`). -/
def pyDictLookup (pairs : List (ℕ × ℕ)) (k : ℕ) : Option ℕ :=
  (pairs.reverse.find? fun p => p.1 == k).map Prod.snd

/-- `order_records(x_coords, y_coords)`: run the greedy loop, build
`order_dict = dict(zip([record_inds[ind] for ind in ind_order],
record_inds))` and read `score = [order_dict[ind] for ind in record_inds]`
(a missing dict key — which the theorem shows cannot happen — is `none`,
mirroring Python's `KeyError`). -/
def orderRecords (xs ys : List ℚ) : Option (List ℕ) :=
  let n := xs.length
  let pts := xs.zip ys
  let final := orderLoop pts n ⟨List.replicate n true, 0, []⟩
  let keys := final.indOrder.map fun ind => (List.range n).getD ind 0
  let dictPairs := keys.zip (List.range n)
  (List.range n).mapM fun ind => pyDictLookup dictPairs ind

theorem sqDistQ_nonneg (p q : ℚ × ℚ) : 0 ≤ sqDistQ p q := by
  unfold sqDistQ
  positivity

theorem argmaxAux_spec (l : List ℚ) :
    ∀ (xs : List ℚ) (i best : ℕ), xs = l.drop i → best < l.length →
      (∀ j : ℕ, j < i → j < l.length → l.getD j 0 ≤ l.getD best 0) →
      argmaxAux xs (l.getD best 0) i best < l.length ∧
      ∀ j : ℕ, j < l.length →
        l.getD j 0 ≤ l.getD (argmaxAux xs (l.getD best 0) i best) 0 := by
  intro xs
  induction xs with
  | nil =>
    intro i best hdrop hbest hprev
    have hle : l.length ≤ i := by
      by_contra hlt
      push_neg at hlt
      have := congrArg List.length hdrop
      simp [List.length_drop] at this
      omega
    refine ⟨hbest, ?_⟩
    intro j hj
    exact hprev j (lt_of_lt_of_le hj hle) hj
  | cons x xs ih =>
    intro i best hdrop hbest hprev
    have hi : i < l.length := by
      by_contra hge
      push_neg at hge
      rw [List.drop_eq_nil_of_le hge] at hdrop
      exact List.cons_ne_nil x xs hdrop
    have hcons : l.drop i = l.get ⟨i, hi⟩ :: l.drop (i + 1) := List.drop_eq_getElem_cons hi
    rw [hcons] at hdrop
    have hpair := (List.cons.injEq x xs _ _).mp hdrop
    have hx : x = l.getD i 0 := by
      rw [getD_eq_get_of_lt l 0 i hi]
      exact hpair.1
    have hxs : xs = l.drop (i + 1) := hpair.2
    show argmaxAux (x :: xs) (l.getD best 0) i best < l.length ∧ _
    rw [argmaxAux]
    by_cases hlt : l.getD best 0 < x
    · rw [if_pos hlt, hx]
      refine ih (i + 1) i hxs hi ?_
      intro j hj hjl
      rcases Nat.lt_succ_iff_lt_or_eq.mp hj with hj2 | hj2
      · exact le_trans (hprev j hj2 hjl) (le_of_lt (hx ▸ hlt))
      · subst hj2; exact le_refl _
    · rw [if_neg hlt]
      refine ih (i + 1) best hxs hbest ?_
      intro j hj hjl
      rcases Nat.lt_succ_iff_lt_or_eq.mp hj with hj2 | hj2
      · exact hprev j hj2 hjl
      · subst hj2
        rw [← hx]
        exact le_of_not_lt hlt

theorem npArgmax_spec (l : List ℚ) (hne : l ≠ []) :
    npArgmax l < l.length ∧ ∀ j : ℕ, j < l.length → l.getD j 0 ≤ l.getD (npArgmax l) 0 := by
  cases l with
  | nil => exact absurd rfl hne
  | cons x xs =>
    have h0 : x = (x :: xs).getD 0 0 := rfl
    have := argmaxAux_spec (x :: xs) xs 1 0 rfl (by simp) (by
      intro j hj hjl
      interval_cases j
      exact le_refl _)
    rw [npArgmax, h0]
    exact this

theorem getD_set_self (l : List Bool) (i : ℕ) (b : Bool) (h : i < l.length) :
    (l.set i b).getD i false = b := by
  induction l generalizing i with
  | nil => exact absurd h (by simp)
  | cons a l ih =>
    cases i with
    | zero => rfl
    | succ j => exact ih j (by simpa using h)

theorem getD_set_other (l : List Bool) (i j : ℕ) (b : Bool) (h : i ≠ j) :
    (l.set i b).getD j false = l.getD j false := by
  induction l generalizing i j with
  | nil => rfl
  | cons a l ih =>
    cases i with
    | zero =>
      cases j with
      | zero => exact absurd rfl h
      | succ k => rfl
    | succ i2 =>
      cases j with
      | zero => rfl
      | succ k => exact ih i2 k fun he => h (by rw [he])

theorem count_true_set_false (l : List Bool) (i : ℕ) (h : i < l.length)
    (ht : l.getD i false = true) : (l.set i false).count true + 1 = l.count true := by
  induction l generalizing i with
  | nil => exact absurd h (by simp)
  | cons a l ih =>
    cases i with
    | zero =>
      have ha : a = true := ht
      subst ha
      simp [List.count_cons]
    | succ j =>
      have hj : j < l.length := by simpa using h
      have hrec := ih j hj ht
      have hstep : (a :: l).set (j + 1) false = a :: l.set j false := rfl
      rw [hstep]
      simp only [List.count_cons]
      omega

theorem any_id_iff_count (l : List Bool) : l.any id = true ↔ 0 < l.count true := by
  rw [List.any_eq_true]
  constructor
  · rintro ⟨x, hx, hid⟩
    have hx2 : x = true := hid
    exact List.count_pos_iff.mpr (hx2 ▸ hx)
  · intro h
    exact ⟨true, List.count_pos_iff.mp h, rfl⟩

theorem exists_true_index (l : List Bool) (h : 0 < l.count true) :
    ∃ k : ℕ, k < l.length ∧ l.getD k false = true := by
  have hmem : true ∈ l := List.count_pos_iff.mp h
  rcases List.mem_iff_get.mp hmem with ⟨⟨k, hk⟩, hget⟩
  exact ⟨k, hk, by rw [getD_eq_get_of_lt l false k hk]; exact hget⟩

theorem getD_replicate (n i : ℕ) (b : Bool) :
    (List.replicate n b).getD i false = if i < n then b else false := by
  induction n generalizing i with
  | zero => simp
  | succ k ih =>
    cases i with
    | zero => simp [List.replicate_succ]
    | succ j =>
      simp only [List.replicate_succ]
      have := ih j
      simp only [List.getD_cons_succ]
      rw [this]
      by_cases hj : j < k
      · rw [if_pos hj, if_pos (by omega)]
      · rw [if_neg hj, if_neg (by omega)]

theorem getD_map_range_rat (n : ℕ) (f : ℕ → ℚ) (i : ℕ) (h : i < n) :
    ((List.range n).map f).getD i 0 = f i := by
  have hlen : i < ((List.range n).map f).length := by simpa using h
  rw [getD_eq_get_of_lt _ 0 i hlen]
  simp

theorem range_getD (n i : ℕ) (h : i < n) : (List.range n).getD i 0 = i := by
  have hlen : i < (List.range n).length := by simpa using h
  rw [getD_eq_get_of_lt _ 0 i hlen]
  simp

theorem distsList_length (pts : List (ℚ × ℚ)) (cur : ℕ) (inds : List Bool) :
    (distsList pts cur inds).length = pts.length := by
  simp [distsList]

theorem distsList_getD (pts : List (ℚ × ℚ)) (cur : ℕ) (inds : List Bool) (i : ℕ)
    (hi : i < pts.length) :
    (distsList pts cur inds).getD i 0 =
      if inds.getD i false then sqDistQ (pts.getD cur (0, 0)) (pts.getD i (0, 0)) else -1 := by
  unfold distsList
  exact getD_map_range_rat pts.length _ i hi

/-- The loop invariant of `order_records`: `inds` has one flag per record,
`ind_order` is duplicate-free and holds exactly the visited (flag-false)
records, and while any record is unvisited `current` points at an
unvisited record. -/
def OrderInv (n : ℕ) (s : OrderState) : Prop :=
  s.inds.length = n ∧
  s.indOrder.Nodup ∧
  (∀ i : ℕ, i ∈ s.indOrder ↔ i < n ∧ s.inds.getD i false = false) ∧
  (0 < s.inds.count true → s.current < n ∧ s.inds.getD s.current false = true)

theorem orderStep_inv (pts : List (ℚ × ℚ)) (n : ℕ) (hn : pts.length = n) (s : OrderState)
    (hinv : OrderInv n s) (hpos : 0 < s.inds.count true) :
    OrderInv n (orderStep pts s) ∧
    (orderStep pts s).inds.count true + 1 = s.inds.count true ∧
    (orderStep pts s).indOrder = s.indOrder ++ [s.current] := by
  obtain ⟨hlen, hnd, hmem, hcur⟩ := hinv
  obtain ⟨hcn, hct⟩ := hcur hpos
  have hcn2 : s.current < s.inds.length := by omega
  have hlen2 : (s.inds.set s.current false).length = n := by
    rw [List.length_set]; exact hlen
  have hcount : (s.inds.set s.current false).count true + 1 = s.inds.count true :=
    count_true_set_false s.inds s.current hcn2 hct
  have hnotmem : s.current ∉ s.indOrder := by
    intro hm
    have := (hmem s.current).mp hm
    rw [this.2] at hct
    exact Bool.false_ne_true hct
  have hnd2 : (s.indOrder ++ [s.current]).Nodup := by
    rw [List.nodup_append]
    exact ⟨hnd, List.nodup_singleton _, by simpa using hnotmem⟩
  have hmem2 : ∀ i : ℕ, i ∈ s.indOrder ++ [s.current] ↔
      i < n ∧ (s.inds.set s.current false).getD i false = false := by
    intro i
    rw [List.mem_append, List.mem_singleton]
    by_cases hic : i = s.current
    · subst hic
      constructor
      · intro _
        exact ⟨hcn, getD_set_self s.inds s.current false hcn2⟩
      · intro _
        exact Or.inr rfl
    · rw [getD_set_other s.inds s.current i false fun he => hic he.symm]
      constructor
      · rintro (hm | he)
        · exact (hmem i).mp hm
        · exact absurd he hic
      · intro hr
        exact Or.inl ((hmem i).mpr hr)
  have hcond4 : 0 < (s.inds.set s.current false).count true →
      npArgmax (distsList pts s.current (s.inds.set s.current false)) < n ∧
      (s.inds.set s.current false).getD
        (npArgmax (distsList pts s.current (s.inds.set s.current false))) false = true := by
    intro hpos2
    have hdlen : (distsList pts s.current (s.inds.set s.current false)).length = n := by
      rw [distsList_length, hn]
    have hnpos : 0 < n := by
      have hle := List.count_le_length (a := true) (l := s.inds.set s.current false)
      omega
    have hdne : distsList pts s.current (s.inds.set s.current false) ≠ [] := by
      intro he
      rw [he] at hdlen
      simp at hdlen
      omega
    obtain ⟨hamax, hage⟩ := npArgmax_spec _ hdne
    rw [hdlen] at hamax
    refine ⟨hamax, ?_⟩
    by_contra hfalse
    have hgetfalse : (s.inds.set s.current false).getD
        (npArgmax (distsList pts s.current (s.inds.set s.current false))) false = false := by
      cases hb : (s.inds.set s.current false).getD
          (npArgmax (distsList pts s.current (s.inds.set s.current false))) false
      · rfl
      · exact absurd hb hfalse
    obtain ⟨k, hk, hktrue⟩ := exists_true_index _ hpos2
    have hk2 : k < pts.length := by rw [hn]; omega
    have hdk : (distsList pts s.current (s.inds.set s.current false)).getD k 0 =
        sqDistQ (pts.getD s.current (0, 0)) (pts.getD k (0, 0)) := by
      rw [distsList_getD _ _ _ k hk2, if_pos hktrue]
    have hmax2 : (distsList pts s.current (s.inds.set s.current false)).getD
        (npArgmax (distsList pts s.current (s.inds.set s.current false))) 0 = -1 := by
      rw [distsList_getD _ _ _ _ (by rw [hn]; exact hamax),
        if_neg (by rw [hgetfalse]; exact Bool.false_ne_true)]
    have hge := hage k (by rw [hdlen]; omega)
    rw [hdk, hmax2] at hge
    have hnn := sqDistQ_nonneg (pts.getD s.current (0, 0)) (pts.getD k (0, 0))
    linarith
  exact ⟨⟨hlen2, hnd2, hmem2, hcond4⟩, hcount, rfl⟩

theorem orderLoop_spec (pts : List (ℚ × ℚ)) (n : ℕ) (hn : pts.length = n) :
    ∀ (fuel : ℕ) (s : OrderState), OrderInv n s → s.inds.count true = fuel →
      OrderInv n (orderLoop pts fuel s) ∧
      (orderLoop pts fuel s).inds.count true = 0 ∧
      (orderLoop pts fuel s).indOrder.length = s.indOrder.length + fuel := by
  intro fuel
  induction fuel with
  | zero =>
    intro s hinv hcount
    exact ⟨hinv, hcount, rfl⟩
  | succ f ih =>
    intro s hinv hcount
    have hpos : 0 < s.inds.count true := by omega
    have hany : s.inds.any id = true := (any_id_iff_count s.inds).mpr hpos
    obtain ⟨hinv2, hcount2, horder2⟩ := orderStep_inv pts n hn s hinv hpos
    have hcount3 : (orderStep pts s).inds.count true = f := by omega
    obtain ⟨hinvF, hcountF, hlenF⟩ := ih (orderStep pts s) hinv2 hcount3
    rw [orderLoop, if_pos hany]
    refine ⟨hinvF, hcountF, ?_⟩
    rw [hlenF, horder2]
    simp only [List.length_append, List.length_singleton]
    omega

theorem pyDictLookup_zip (ks vs : List ℕ) (hnd : ks.Nodup) (hlen : ks.length = vs.length)
    (k : ℕ) (hmem : k ∈ ks) :
    pyDictLookup (ks.zip vs) k = some (vs.getD (ks.indexOf k) 0) := by
  induction ks generalizing vs with
  | nil => exact absurd hmem (by simp)
  | cons k0 ks ih =>
    cases vs with
    | nil => exact absurd hlen (by simp)
    | cons v0 vs =>
      have hzip : (k0 :: ks).zip (v0 :: vs) = (k0, v0) :: ks.zip vs := rfl
      rw [hzip]
      unfold pyDictLookup
      rw [List.reverse_cons, List.find?_append]
      by_cases hk : k = k0
      · subst hk
        have htail : (ks.zip vs).reverse.find? (fun p => p.1 == k) = none := by
          rw [List.find?_eq_none]
          intro pr hpr
          have hpr2 : pr ∈ ks.zip vs := List.mem_reverse.mp hpr
          obtain ⟨a, b⟩ := pr
          have hfst : a ∈ ks := (List.of_mem_zip hpr2).1
          intro hbeq
          have haeq : a = k := by simpa using hbeq
          exact (List.nodup_cons.mp hnd).1 (haeq ▸ hfst)
        rw [htail]
        simp [List.find?, List.indexOf_cons_self]
      · have hmem2 : k ∈ ks := by
          rcases List.mem_cons.mp hmem with h | h
          · exact absurd h hk
          · exact h
        have hrec := ih vs (List.nodup_cons.mp hnd).2 (by simpa using hlen) hmem2
        unfold pyDictLookup at hrec
        have hidx : (k0 :: ks).indexOf k = ks.indexOf k + 1 :=
          List.indexOf_cons_ne ks fun he => hk he.symm
        rw [hidx]
        have hgv : (v0 :: vs).getD (ks.indexOf k + 1) 0 = vs.getD (ks.indexOf k) 0 := rfl
        rw [hgv]
        rcases hopt : (ks.zip vs).reverse.find? fun p => p.1 == k with _ | pr
        · rw [hopt] at hrec
          simp at hrec
        · rw [hopt] at hrec
          rw [hopt]
          simpa [Option.or] using hrec

theorem mapM_option_some {α β : Type} (f : α → Option β) (g : α → β) :
    ∀ l : List α, (∀ a ∈ l, f a = some (g a)) → l.mapM f = some (l.map g) := by
  intro l
  induction l with
  | nil => intro _; rfl
  | cons a l ih =>
    intro h
    rw [List.mapM_cons, h a (List.mem_cons_self a l), ih fun x hx => h x (List.mem_cons_of_mem a hx)]
    rfl

/-- The state of `order_records` after the greedy loop (an abbreviation
used by the correctness statement). -/
def finalState (xs ys : List ℚ) : OrderState :=
  orderLoop (xs.zip ys) xs.length ⟨List.replicate xs.length true, 0, []⟩

theorem orderRecords_eq (xs ys : List ℚ) :
    orderRecords xs ys =
      (List.range xs.length).mapM fun ind =>
        pyDictLookup
          (((finalState xs ys).indOrder.map fun i => (List.range xs.length).getD i 0).zip
            (List.range xs.length)) ind := rfl

/-- C10: for equal-length coordinate lists of length `n`, the greedy
farthest-point traversal visits every record — after exactly `n`
iterations (`ind_order` has length `n` and the loop guard `any(inds)` is
exhausted) — and `order_records` returns a score list of length `n` that is
a permutation of `{0, …, n-1}`. -/
theorem c10_order_perm (xs ys : List ℚ) (h : xs.length = ys.length) :
    ∃ l : List ℕ, orderRecords xs ys = some l ∧ l.length = xs.length ∧
      l.Perm (List.range xs.length) ∧
      (finalState xs ys).indOrder.length = xs.length ∧
      (finalState xs ys).inds.any id = false := by
  have hn : (xs.zip ys).length = xs.length := by
    rw [List.length_zip, h, min_self]
  have hinv0 : OrderInv xs.length ⟨List.replicate xs.length true, 0, []⟩ := by
    refine ⟨List.length_replicate _ _, List.nodup_nil, ?_, ?_⟩
    · intro i
      simp only [List.not_mem_nil, false_iff, not_and]
      intro hi
      rw [getD_replicate _ _ _, if_pos hi]
      simp
    · intro hpos
      have hcount : (List.replicate xs.length true).count true = xs.length := by
        simp [List.count_replicate]
      rw [hcount] at hpos
      refine ⟨hpos, ?_⟩
      rw [getD_replicate _ _ _, if_pos hpos]
  have hcount0 : (List.replicate xs.length true).count true = xs.length := by
    simp [List.count_replicate]
  obtain ⟨hinvF, hcountF, hlenF⟩ :=
    orderLoop_spec (xs.zip ys) xs.length hn xs.length
      ⟨List.replicate xs.length true, 0, []⟩ hinv0 hcount0
  obtain ⟨hlenInds, hndF, hmemF, _⟩ := hinvF
  have hlenOrder : (finalState xs ys).indOrder.length = xs.length := by
    rw [finalState, hlenF]
    simp
  have hmemF2 : ∀ i : ℕ, i ∈ (finalState xs ys).indOrder ↔ i < xs.length := by
    intro i
    rw [show (finalState xs ys).indOrder =
      (orderLoop (xs.zip ys) xs.length ⟨List.replicate xs.length true, 0, []⟩).indOrder from rfl]
    rw [hmemF i]
    constructor
    · rintro ⟨h1, _⟩
      exact h1
    · intro h1
      refine ⟨h1, ?_⟩
      cases hb : (orderLoop (xs.zip ys) xs.length
          ⟨List.replicate xs.length true, 0, []⟩).inds.getD i false
      · rfl
      · exfalso
        have hmemT : true ∈ (orderLoop (xs.zip ys) xs.length
            ⟨List.replicate xs.length true, 0, []⟩).inds := by
          have hmm := getD_mem_of_lt (orderLoop (xs.zip ys) xs.length
            ⟨List.replicate xs.length true, 0, []⟩).inds i false (by rw [hlenInds]; exact h1)
          rw [hb] at hmm
          exact hmm
        have := List.count_pos_iff.mpr hmemT
        omega
  have hndOrder : (finalState xs ys).indOrder.Nodup := hndF
  have hanyF : (finalState xs ys).inds.any id = false := by
    cases hany : (finalState xs ys).inds.any id
    · rfl
    · exfalso
      have := (any_id_iff_count _).mp hany
      rw [show (finalState xs ys).inds =
        (orderLoop (xs.zip ys) xs.length ⟨List.replicate xs.length true, 0, []⟩).inds
        from rfl] at this
      omega
  have hkeys : ((finalState xs ys).indOrder.map fun i => (List.range xs.length).getD i 0) =
      (finalState xs ys).indOrder := by
    have hcongr : ∀ ind ∈ (finalState xs ys).indOrder,
        (List.range xs.length).getD ind 0 = id ind := by
      intro ind hind
      exact range_getD _ _ ((hmemF2 ind).mp hind)
    rw [List.map_congr_left hcongr, List.map_id]
  have hlook : ∀ i ∈ List.range xs.length,
      pyDictLookup
        (((finalState xs ys).indOrder.map fun j => (List.range xs.length).getD j 0).zip
          (List.range xs.length)) i = some ((finalState xs ys).indOrder.indexOf i) := by
    intro i hi
    have himem : i ∈ (finalState xs ys).indOrder := (hmemF2 i).mpr (List.mem_range.mp hi)
    have hidxlt : (finalState xs ys).indOrder.indexOf i < xs.length := by
      have hx := List.indexOf_lt_length.mpr himem
      rw [hlenOrder] at hx
      exact hx
    rw [hkeys, pyDictLookup_zip (finalState xs ys).indOrder (List.range xs.length) hndOrder
      (by rw [hlenOrder]; simp) i himem, range_getD _ _ hidxlt]
  have hscore : orderRecords xs ys =
      some ((List.range xs.length).map fun i => (finalState xs ys).indOrder.indexOf i) := by
    rw [orderRecords_eq]
    exact mapM_option_some _ (fun i => (finalState xs ys).indOrder.indexOf i)
      (List.range xs.length) hlook
  have hndScore : ((List.range xs.length).map fun i =>
      (finalState xs ys).indOrder.indexOf i).Nodup := by
    refine List.Nodup.map_on ?_ (List.nodup_range _)
    intro x hx y hy hxy
    have hx2 : x ∈ (finalState xs ys).indOrder := (hmemF2 x).mpr (List.mem_range.mp hx)
    have hy2 : y ∈ (finalState xs ys).indOrder := (hmemF2 y).mpr (List.mem_range.mp hy)
    have hxl : (finalState xs ys).indOrder.indexOf x < (finalState xs ys).indOrder.length :=
      List.indexOf_lt_length.mpr hx2
    have hyl : (finalState xs ys).indOrder.indexOf y < (finalState xs ys).indOrder.length :=
      List.indexOf_lt_length.mpr hy2
    have hgx : (finalState xs ys).indOrder.get ⟨_, hxl⟩ = x := List.indexOf_get hxl
    have hgy : (finalState xs ys).indOrder.get ⟨_, hyl⟩ = y := List.indexOf_get hyl
    rw [← hgx, ← hgy]
    congr 1
    exact Fin.ext hxy
  have hmemScore : ∀ a : ℕ,
      a ∈ ((List.range xs.length).map fun i => (finalState xs ys).indOrder.indexOf i) ↔
      a ∈ List.range xs.length := by
    intro a
    constructor
    · intro ha
      rcases List.mem_map.mp ha with ⟨i, hi, hgi⟩
      have hi2 : i ∈ (finalState xs ys).indOrder := (hmemF2 i).mpr (List.mem_range.mp hi)
      have hlt : (finalState xs ys).indOrder.indexOf i < (finalState xs ys).indOrder.length :=
        List.indexOf_lt_length.mpr hi2
      rw [← hgi]
      rw [hlenOrder] at hlt
      exact List.mem_range.mpr hlt
    · intro ha
      have halt : a < xs.length := List.mem_range.mp ha
      have halt2 : a < (finalState xs ys).indOrder.length := by rw [hlenOrder]; exact halt
      refine List.mem_map.mpr ⟨(finalState xs ys).indOrder.get ⟨a, halt2⟩, ?_, ?_⟩
      · have hmem3 : (finalState xs ys).indOrder.get ⟨a, halt2⟩ ∈ (finalState xs ys).indOrder :=
          (finalState xs ys).indOrder.get_mem _ _
        exact List.mem_range.mpr ((hmemF2 _).mp hmem3)
      · exact List.get_indexOf hndOrder ⟨a, halt2⟩
  refine ⟨(List.range xs.length).map fun i => (finalState xs ys).indOrder.indexOf i,
    hscore, by simp, ?_, hlenOrder, hanyF⟩
  exact (List.perm_ext_iff_of_nodup hndScore (List.nodup_range _)).mpr hmemScore

/-- Witness for C10 at concrete three-point input. -/
theorem c10_witness :
    ∃ l : List ℕ, orderRecords [0, 3, 1] [0, 0, 0] = some l ∧ l.length = 3 ∧
      l.Perm (List.range 3) ∧
      (finalState [0, 3, 1] [0, 0, 0]).indOrder.length = 3 ∧
      (finalState [0, 3, 1] [0, 0, 0]).inds.any id = false :=
  c10_order_perm [0, 3, 1] [0, 0, 0] (by decide)

/-! ## The workflow session and `add_source` (`theto.py`)

A Python method mutates `self` statement by statement, and an exception
aborts the method but keeps whatever mutations already happened — modelled
by the state-passing monad `ThetoM α = ThetoState → Except PyErr α ×
ThetoState` in which a raise returns the state accumulated so far.  The
all-or-nothing claim is then a real property of the statement order: had
`add_source` mutated the session before normalizing the batch, the theorem
below would be false.

External libraries are abstracted as the `ExternalGeo` parameter: `json`
parsing (`detect_geojson` / `import_geojson`), the pyproj web-Mercator
transform, and shapely's coordinate extraction
(`shape_to_nested_list` / `representative_point`); these are pure
per-record functions with no access to the session.  The per-record
columns of the local DataFrame that no session field depends on are not
modelled; the session's bounds read the flattened original-projection
coordinate lists, as in `_set_coordinate_bounds`. -/

structure DFModel where
  xCoordsFlat : List ℚ
  yCoordsFlat : List ℚ
  uid : List ℕ
deriving Repr

structure ExternalGeo where
  jsonValid : String → Bool
  importGeo : String → Except PyErr Geom
  toWebmerc : Geom → Geom
  nestedX : Geom → List ℚ
  nestedY : Geom → List ℚ
  repPoint : Geom → ℚ × ℚ

/-- `detect_geojson`: strings that parse as JSON; anything else is `False`. -/
def detectGeojson (E : ExternalGeo) : PyValue → Bool
  | .str s => E.jsonValid s
  | _ => false

/-- `import_geojson` applied to a raw record (a non-string record would
make `json.loads` raise a `TypeError`; unreachable when the whole batch
passed `detect_geojson`). -/
def importGeojsonVal (E : ExternalGeo) : PyValue → Except PyErr Geom
  | .str s => E.importGeo s
  | _ => .error .typeErr

/-- The per-record normalizer `add_source` uses: `import_geojson` when
every record of the batch looks like GeoJSON, `process_input_value`
otherwise. -/
def recordNormalizer (E : ExternalGeo) (data : List PyValue) : PyValue → Except PyErr Geom :=
  if data.all (detectGeojson E) then importGeojsonVal E else processInputValue

structure ThetoState where
  sources : List (String × DFModel)
  removeColumns : List (String × List String)
  xmin : Option ℚ
  xmax : Option ℚ
  ymin : Option ℚ
  ymax : Option ℚ
  validation : Validation

/-- The session monad: a raise aborts the method but keeps the state
mutated so far. -/
def ThetoM (α : Type) : Type := ThetoState → Except PyErr α × ThetoState

def thetoPure {α : Type} (a : α) : ThetoM α := fun st => (.ok a, st)

def thetoBind {α β : Type} (x : ThetoM α) (f : α → ThetoM β) : ThetoM β := fun st =>
  match x st with
  | (.ok a, st2) => f a st2
  | (.error e, st2) => (.error e, st2)

def thetoRaise {α : Type} (e : PyErr) : ThetoM α := fun st => (.error e, st)

def thetoLift {α : Type} : Except PyErr α → ThetoM α
  | .ok a => thetoPure a
  | .error e => thetoRaise e

def thetoModify (f : ThetoState → ThetoState) : ThetoM Unit := fun st => (.ok (), f st)

/-- `self._validate_workflow(stage)` as a session action. -/
def validateWorkflowT (stage : Stage) : ThetoM Unit := fun st =>
  match validateWorkflow stage st.validation with
  | some e => (.error e, st)
  | none => (.ok (), st)

/-- Python dict assignment `d[k] = v` on an insertion-ordered pair list. -/
def pyDictSet {β : Type} (d : List (String × β)) (k : String) (v : β) : List (String × β) :=
  if d.any fun p => p.1 == k then d.map fun p => if p.1 == k then (k, v) else p
  else d ++ [(k, v)]

/-- `Theto._set_coordinate_bounds`: `min`/`max` of the flattened coordinate
lists (Python `min` raises on an empty list), then the monotone update of
the four optional bounds. -/
def setCoordinateBounds (df : DFModel) : ThetoM Unit := fun st =>
  if df.xCoordsFlat.isEmpty || df.yCoordsFlat.isEmpty then (.error .emptyCoords, st)
  else
    (.ok (), { st with
      xmin := some (match st.xmin with
        | some v => if pyListMin df.xCoordsFlat < v then pyListMin df.xCoordsFlat else v
        | none => pyListMin df.xCoordsFlat),
      xmax := some (match st.xmax with
        | some v => if pyListMax df.xCoordsFlat > v then pyListMax df.xCoordsFlat else v
        | none => pyListMax df.xCoordsFlat),
      ymin := some (match st.ymin with
        | some v => if pyListMin df.yCoordsFlat < v then pyListMin df.yCoordsFlat else v
        | none => pyListMin df.yCoordsFlat),
      ymax := some (match st.ymax with
        | some v => if pyListMax df.yCoordsFlat > v then pyListMax df.yCoordsFlat else v
        | none => pyListMax df.yCoordsFlat) })

/-- The local DataFrame built by `add_source` (only the session-relevant
columns: flattened original-projection coordinates and the uid column;
`uid = None` uses `range(len(data))`). -/
def mkDF (E : ExternalGeo) (uid : Option (List ℕ)) (data : List PyValue)
    (processed : List Geom) : DFModel :=
  { xCoordsFlat := (processed.map E.nestedX).flatten,
    yCoordsFlat := (processed.map E.nestedY).flatten,
    uid := match uid with
      | some l => l
      | none => List.range data.length }

/-- `Theto.add_source(data, label, uid)`, statement for statement:
validate the workflow stage; normalize the whole batch (the first invalid
record raises); unzip the per-record coordinates (`zip(*[])` raises on an
empty batch); update the session bounds; register the source under
`label`; initialize `remove_columns[label]`; set the `add_source` flag. -/
def addSource (E : ExternalGeo) (label : String) (uid : Option (List ℕ))
    (data : List PyValue) : ThetoM Unit :=
  thetoBind (validateWorkflowT .addSourceS) fun _ =>
  thetoBind (thetoLift (data.mapM (recordNormalizer E data))) fun processed =>
  thetoBind (if processed.isEmpty then thetoRaise .emptyData else thetoPure ()) fun _ =>
  thetoBind (setCoordinateBounds (mkDF E uid data processed)) fun _ =>
  thetoBind (thetoModify fun st =>
    { st with sources := pyDictSet st.sources label (mkDF E uid data processed) }) fun _ =>
  thetoBind (thetoModify fun st =>
    { st with removeColumns := pyDictSet st.removeColumns label ["f", "p"] }) fun _ =>
  thetoModify fun st =>
    { st with validation := { st.validation with addSourceF := true } }

theorem mapM_except_error {α β : Type} (f : α → Except PyErr β) :
    ∀ (l : List α) (v : α), v ∈ l → (∃ e, f v = .error e) →
      ∃ e2, l.mapM f = .error e2 := by
  intro l
  induction l with
  | nil => intro v hv; exact absurd hv (by simp)
  | cons a l ih =>
    intro v hv hfail
    rcases hfail with ⟨e, hfe⟩
    rcases List.mem_cons.mp hv with hva | hvl
    · subst hva
      exact ⟨e, by rw [List.mapM_cons, hfe]; rfl⟩
    · cases hfa : f a with
      | error e0 => exact ⟨e0, by rw [List.mapM_cons, hfa]; rfl⟩
      | ok b =>
        rcases ih v hvl ⟨e, hfe⟩ with ⟨e2, hmap⟩
        exact ⟨e2, by rw [List.mapM_cons, hfa, hmap]; rfl⟩

/-- C5: if any record of the batch fails normalization, `add_source`
raises and the session state is returned exactly as it was — no source
registered, bounds untouched, `remove_columns` untouched, no workflow flag
set. -/
theorem c5_all_or_nothing (E : ExternalGeo) (label : String) (uid : Option (List ℕ))
    (data : List PyValue) (st : ThetoState) (v : PyValue) (hv : v ∈ data)
    (hfail : ∃ e, recordNormalizer E data v = .error e) :
    ∃ e2, addSource E label uid data st = (.error e2, st) := by
  rcases mapM_except_error (recordNormalizer E data) data v hv hfail with ⟨e2, hmapm⟩
  cases hw : validateWorkflow .addSourceS st.validation with
  | some e =>
    refine ⟨e, ?_⟩
    unfold addSource thetoBind validateWorkflowT
    rw [hw]
  | none =>
    refine ⟨e2, ?_⟩
    unfold addSource thetoBind validateWorkflowT thetoLift
    rw [hw, hmapm]
    rfl

/-- A trivial instantiation of the external-library parameters for the C5
witness. -/
def trivialExternal : ExternalGeo :=
  { jsonValid := fun _ => false,
    importGeo := fun _ => .error .typeErr,
    toWebmerc := id,
    nestedX := fun _ => [0],
    nestedY := fun _ => [0],
    repPoint := fun _ => (0, 0) }

/-- The freshly constructed session. -/
def initialState : ThetoState :=
  { sources := [], removeColumns := [], xmin := none, xmax := none, ymin := none,
    ymax := none, validation := Validation.initial }

/-- Witness for C5: a batch holding the single unnormalizable string
`"bogus"` leaves the fresh session untouched. -/
theorem c5_witness :
    ∃ e2, addSource trivialExternal "a" none [.str "bogus"] initialState =
      (.error e2, initialState) :=
  c5_all_or_nothing trivialExternal "a" none [.str "bogus"] initialState (.str "bogus")
    (List.mem_singleton.mpr rfl) ⟨.stringUnrecognized, by decide⟩

end Theto
